import Mathlib

/-!
Verification development for a documentation-corpus MCP server (markdown
parsing, ripgrep-backed search, grouped results, path validation, category
tree building, quick lookup).  Strings are embedded as `List Char`; the
JavaScript string operations used by the source (trim, toLowerCase,
includes, split, join, replace-first-occurrence, startsWith, endsWith) are
given as executable functions on `List Char`.  Filesystem and subprocess
effects are modelled as explicit oracles passed to the functions that use
them.
-/

namespace HackTricks

/-- The ECMAScript `\s` class (WhiteSpace and LineTerminator), as used by
`String.prototype.trim` and by `\s` in the source's regexes. -/
def isWs (c : Char) : Bool :=
  c.isWhitespace || c == '\u000B' || c == '\u000C' || c == '\u00A0' ||
  c == '\u1680' || (decide ('\u2000' ≤ c) && decide (c ≤ '\u200A')) ||
  c == '\u2028' || c == '\u2029' || c == '\u202F' || c == '\u205F' ||
  c == '\u3000' || c == '\uFEFF'

/-- JS `String.prototype.trim`: drop whitespace from both ends. -/
def trimList (l : List Char) : List Char :=
  ((l.dropWhile isWs).reverse.dropWhile isWs).reverse

/-- JS `String.prototype.toLowerCase` (character-wise). -/
def lowerList (l : List Char) : List Char := l.map Char.toLower

/-- JS `String.prototype.includes`: `pat` occurs as a contiguous substring of `s`. -/
def containsSub : List Char → List Char → Bool
  | s@(_ :: t), pat => pat.isPrefixOf s || containsSub t pat
  | [], pat => pat.isEmpty

/-- JS `String.prototype.split("\n")`: always at least one (possibly empty) line. -/
def splitLines : List Char → List (List Char)
  | [] => [[]]
  | c :: t =>
    let rest := splitLines t
    if c == '\n' then [] :: rest
    else
      match rest with
      | l :: ls => (c :: l) :: ls
      | [] => [[c]]

/-- JS `Array.prototype.join("\n")`. -/
def joinLines (ls : List (List Char)) : List Char := List.intercalate [('\n')] ls

/-- JS `String.prototype.replace(pat, rep)` with a plain-string pattern:
replace only the first occurrence, leave the string unchanged when the
pattern does not occur. -/
def replaceFirst (pat rep : List Char) : List Char → List Char
  | [] => if pat.isPrefixOf ([] : List Char) then rep else []
  | c :: t =>
    if pat.isPrefixOf (c :: t) then rep ++ (c :: t).drop pat.length
    else c :: replaceFirst pat rep t

/-- JS `file.split("/").pop()`: the suffix after the last `/`. -/
def lastComponent (file : List Char) : List Char :=
  (file.reverse.takeWhile (fun c => !(c == '/'))).reverse

/-- JS `parseInt(digits, 10)` on a string of decimal digits. -/
def digitsToNat (ds : List Char) : Nat :=
  ds.foldl (fun n c => n * 10 + (c.toNat - ('0').toNat)) 0

/-- Code-point lexicographic order on names; embeds
`String.prototype.localeCompare` as used for sibling ordering. -/
def lexLtChar : List Char → List Char → Bool
  | [], [] => false
  | [], _ :: _ => true
  | _ :: _, [] => false
  | a :: s, b :: t => if a == b then lexLtChar s t else decide (a < b)

/-- Insert `a` in front of the first element it may precede (stable). -/
def insertSortedBy (le : α → α → Bool) (a : α) : List α → List α
  | [] => [a]
  | b :: t => if le a b then a :: b :: t else b :: insertSortedBy le a t

/-- Stable insertion sort; embeds JS `Array.prototype.sort` with a
comparator (the ECMAScript sort is stable). -/
def sortBy (le : α → α → Bool) : List α → List α
  | [] => []
  | a :: t => insertSortedBy le a (sortBy le t)

/-- Add `s` to `acc` unless already present; embeds insertion into a JS
`Set` (insertion order kept, duplicates dropped). -/
def addUnique (acc : List (List Char)) (s : List Char) : List (List Char) :=
  if s ∈ acc then acc else acc ++ [s]

/-- `Array.from(new Set(xs))`: first-seen-order deduplication. -/
def dedupKeepFirst (xs : List (List Char)) : List (List Char) :=
  xs.foldl addUnique []

/-! ## Markdown structural parser (src/index.ts lines 54-133) -/

/-- A markdown header: nesting level (1-6), trimmed text, 1-based line. -/
structure Header where
  level : Nat
  text : List Char
  line : Nat
deriving DecidableEq

/-- The ECMAScript LineTerminator characters: the set `.` never matches
(a strict subset of `\s`). -/
def isLineTerm (c : Char) : Bool :=
  c == '\n' || c == '\r' || c == '\u2028' || c == '\u2029'

/-- The maximal run matched by a greedy `(.+)`: characters up to the first
LineTerminator. -/
def dotRun (l : List Char) : List Char := l.takeWhile (fun c => !isLineTerm c)

/-- The JS regex `^(#{1,6})\s+(.+)$` applied to one full line (no `/m`, so
`$` only matches the very end of the line), returning
`(capture 1 length, capture 2)`.  `(.+)$` must consume everything after
`\s+`, and `.` cannot match a LineTerminator, so when text follows the
whitespace run it is the capture exactly when it is LineTerminator-free.
On a line of hashes followed only by whitespace, `\s+` backtracks one
character at a time: the line matches exactly when the run has two or more
characters and its last character is not a LineTerminator, the second
capture being that single last character. -/
def headerCapture (l : List Char) : Option (Nat × List Char) :=
  let hs := l.takeWhile (fun c => c == '#')
  let rest := l.drop hs.length
  let ws := rest.takeWhile isWs
  let after := rest.drop ws.length
  if hs.length == 0 || decide (6 < hs.length) || ws.length == 0 then none
  else if !after.isEmpty then
    if after.all (fun c => !isLineTerm c) then some (hs.length, after) else none
  else if decide (2 ≤ ws.length) &&
      (ws.drop (ws.length - 1)).all (fun c => !isLineTerm c) then
    some (hs.length, ws.drop (ws.length - 1))
  else none

/-- One attempt of the `/^#\s+(.+)$/m` match at an anchored position, `l`
being the content from the anchor on.  `\s+` is greedy and may span
newlines; with `/m`, `$` holds before any LineTerminator as well as at the
end, so when a non-whitespace character follows the run the greedy `(.+)`
captures from it up to the next LineTerminator.  When the content ends
inside the whitespace run, `\s+` backtracks: the longest surrender whose
first returned character is not a LineTerminator wins, capturing that
single character (everything after it is LineTerminators, by choice of the
surrender point). -/
def titleAttempt (l : List Char) : Option (List Char) :=
  match l with
  | '#' :: rest =>
    let ws := rest.takeWhile isWs
    let after := rest.drop ws.length
    if ws.length == 0 then none
    else if !after.isEmpty then some (dotRun after)
    else
      let k := (ws.reverse.takeWhile isLineTerm).length
      if k + 2 ≤ ws.length then some (dotRun (ws.drop (ws.length - 1 - k)))
      else none
  | _ => none

/-- Left-to-right scan of `/^#\s+(.+)$/m` over the whole content: `^`
holds at the start and immediately after every LineTerminator, and the
first anchored attempt that matches wins. -/
def titleScanFrom : Bool → List Char → Option (List Char)
  | _, [] => none
  | anchored, c :: rest =>
    match (if anchored then titleAttempt (c :: rest) else none) with
    | some t => some t
    | none => titleScanFrom (isLineTerm c) rest

/-- `extractTitle`: capture of the first `/^#\s+(.+)$/m` match, trimmed;
"Untitled" when the content has no match. -/
def extractTitle (content : List Char) : List Char :=
  match titleScanFrom true content with
  | some t => trimList t
  | none => ("Untitled").data

/-- Loop body of `extractHeaders`: scan lines, 1-based numbering. -/
def extractHeadersFrom : List (List Char) → Nat → List Header
  | [], _ => []
  | l :: rest, i =>
    match headerCapture l with
    | some (lv, raw) => ⟨lv, trimList raw, i⟩ :: extractHeadersFrom rest (i + 1)
    | none => extractHeadersFrom rest (i + 1)

/-- `extractHeaders`: all lines matching `^(#{1,6})\s+(.+)$`, with level,
trimmed text and 1-based line number. -/
def extractHeaders (content : List Char) : List Header :=
  extractHeadersFrom (splitLines content) 1

/-- Loop of `findNearestSection`: remember the last header at or before the
target line, stop at the first one past it. -/
def findNearestSectionAux : Option Header → List Header → Nat → Option Header
  | acc, [], _ => acc
  | acc, h :: rest, t =>
    if h.line ≤ t then findNearestSectionAux (some h) rest t else acc

/-- `findNearestSection(headers, targetLine)`: text of the retained header,
or none. -/
def findNearestSection (headers : List Header) (targetLine : Nat) : Option (List Char) :=
  (findNearestSectionAux none headers targetLine).map Header.text

/-- The JS regex `^(#{1,6})\s+` applied to one line (the section
end-boundary test of `extractSection`): hashes followed by at least one
whitespace character, no text requirement. -/
def endBoundaryLevel (l : List Char) : Option Nat :=
  let hs := l.takeWhile (fun c => c == '#')
  let rest := l.drop hs.length
  let ws := rest.takeWhile isWs
  if hs.length == 0 || decide (6 < hs.length) || ws.length == 0 then none
  else some hs.length

/-- Does line `l` end a section opened at level `lv`
(`match[1].length <= startLevel`)? -/
def boundaryHit (l : List Char) (lv : Nat) : Bool :=
  match endBoundaryLevel l with
  | some k => decide (k ≤ lv)
  | none => false

/-- First loop of `extractSection`: find the first header line whose raw
second capture, lowercased, contains the (lowercased) requested name;
returns its 0-based index and level. -/
def findStart : List (List Char) → List Char → Nat → Option (Nat × Nat)
  | [], _, _ => none
  | l :: rest, key, i =>
    match headerCapture l with
    | some (lv, raw) =>
      if containsSub (lowerList raw) key then some (i, lv)
      else findStart rest key (i + 1)
    | none => findStart rest key (i + 1)

/-- Second loop of `extractSection`: scanning the lines after the start,
return the 0-based index of the first line matching `^(#{1,6})\s+` at level
`≤ lv`, or `total` (the line count) when none does. -/
def findEndFrom : List (List Char) → Nat → Nat → Nat → Nat
  | [], _, _, total => total
  | l :: rest, lv, i, total =>
    match endBoundaryLevel l with
    | some k => if k ≤ lv then i else findEndFrom rest lv (i + 1) total
    | none => findEndFrom rest lv (i + 1) total

/-- `extractSection(content, sectionName)`: lines from the matched header
up to (excluding) the first subsequent line matching `^(#{1,6})\s+` at
level `≤` the start level, joined with newlines. -/
def extractSection (content : List Char) (sectionName : List Char) : Option (List Char) :=
  let ls := splitLines content
  match findStart ls (lowerList sectionName) 0 with
  | none => none
  | some (s, lv) =>
    let e := findEndFrom (ls.drop (s + 1)) lv (s + 1) ls.length
    some (joinLines ((ls.drop s).take (e - s)))

/-! ## Search adapter (src/index.ts lines 157-211)

The module constant `HACKTRICKS_PATH` (resolved once at startup) is passed
explicitly as `root`; the external search engine (`rg` spawned through
`execFile`) is an oracle from the spawned call to its observed outcome. -/

/-- One raw search record parsed from an engine output line. -/
structure SearchResult where
  file : List Char
  line : Nat
  content : List Char
deriving DecidableEq

/-- A subprocess invocation as `execFile` receives it: a program name and a
list of discrete argument values (never a shell command line). -/
structure ExecCall where
  program : List Char
  args : List (List Char)
deriving DecidableEq

/-- Observable outcomes of the external engine: stdout on success, exit
code 1 (no matches), exit code 2 (bad pattern), anything else. -/
inductive EngineOutcome where
  | success (stdout : List Char)
  | noMatches
  | badPattern (msg : List Char)
  | failed (msg : List Char)
deriving DecidableEq

/-- Errors of the search path. -/
inductive SearchError where
  | emptyQuery
  | invalidPattern (msg : List Char)
  | searchFailed (msg : List Char)
deriving DecidableEq

/-- The exact `execFile` invocation built by `searchHackTricks`:
`execFileAsync("rg", ["-n", "-i", "--type", "md", query, searchPath])`.
The query is a single discrete element of the argument vector. -/
def rgCall (query searchScope : List Char) : ExecCall :=
  ⟨("rg").data,
   [("-n").data, ("-i").data, ("--type").data, ("md").data, query, searchScope]⟩

/-- The directory handed to the engine:
`category ? join(HACKTRICKS_PATH, "src", category) : HACKTRICKS_PATH`. -/
def searchScope (root : List Char) (category : Option (List Char)) : List Char :=
  match category with
  | some c => root ++ (("/src/").data) ++ c
  | none => root

/-- Parse one engine output line with the JS regex `^([^:]+):(\d+):(.+)$`:
non-empty run up to the first colon (file), then a non-empty digit run
immediately followed by a colon (line number), then a non-empty rest
(content, trimmed).  The file is rewritten relative to the corpus root
(`file.replace(HACKTRICKS_PATH + "/", "")`, first occurrence). -/
def parseRgLine (root : List Char) (l : List Char) : Option SearchResult :=
  let file := l.takeWhile (fun c => !(c == ':'))
  match l.drop file.length with
  | ':' :: r2 =>
    if file.isEmpty then none
    else
      let digits := r2.takeWhile Char.isDigit
      match digits, r2.drop digits.length with
      | [], _ => none
      | _ :: _, ':' :: content =>
        if content.isEmpty then none
        else some ⟨replaceFirst (root ++ [('/')]) [] file, digitsToNat digits, trimList content⟩
      | _ :: _, _ => none
  | _ => none

/-- `searchHackTricks(query, category?, limit)`: reject an empty/whitespace
query before any engine call, otherwise invoke the engine once on `rgCall`
and classify its outcome; successful stdout is trimmed, split into lines,
parsed (non-conforming lines dropped) and capped at `limit`. -/
def searchHackTricks (root : List Char) (engine : ExecCall → EngineOutcome)
    (query : List Char) (category : Option (List Char)) (limit : Nat) :
    Except SearchError (List SearchResult) :=
  if query.isEmpty || (trimList query).isEmpty then .error .emptyQuery
  else
    match engine (rgCall query (searchScope root category)) with
    | .success out =>
      .ok (((splitLines (trimList out)).filterMap (parseRgLine root)).take limit)
    | .noMatches => .ok []
    | .badPattern msg => .error (.invalidPattern msg)
    | .failed msg => .error (.searchFailed msg)

/-! ## Result aggregator (src/index.ts lines 216-277) -/

/-- One preview match: line number and (possibly truncated) content. -/
structure TopMatch where
  line : Nat
  content : List Char
deriving DecidableEq

/-- One per-file grouped search result. -/
structure GroupedSearchResult where
  file : List Char
  title : List Char
  matchCount : Nat
  relevantSections : List (List Char)
  topMatches : List TopMatch
deriving DecidableEq

/-- Add one record to the per-file groups, preserving first-seen key order
and appending within a key; embeds the JS `Map` accumulation loop. -/
def addToGroups (gs : List (List Char × List SearchResult)) (r : SearchResult) :
    List (List Char × List SearchResult) :=
  match gs with
  | [] => [(r.file, [r])]
  | (f, ms) :: t =>
    if f = r.file then (f, ms ++ [r]) :: t else (f, ms) :: addToGroups t r

/-- Partition raw records by file (`Map` iteration order = key insertion
order). -/
def groupByFile (rs : List SearchResult) : List (List Char × List SearchResult) :=
  rs.foldl addToGroups []

/-- Truncate previews over 150 characters with an ellipsis. -/
def truncateMatch (m : SearchResult) : TopMatch :=
  ⟨m.line, if decide (150 < m.content.length) then m.content.take 150 ++ ("...").data
           else m.content⟩

/-- Degraded title when the file read fails:
`file.split("/").pop()?.replace(".md", "") || "Unknown"` (first occurrence
of ".md" removed; the JS `||` turns an empty result into "Unknown"). -/
def fallbackTitle (file : List Char) : List Char :=
  let t := replaceFirst ((".md").data) [] (lastComponent file)
  if t.isEmpty then ("Unknown").data else t

/-- Build one `GroupedSearchResult` for a file and its matches; the
filesystem oracle returns the file content, or `none` when the read fails
(in which case the group is still produced with degraded fields).  The
source's `if (section)` guard is JS truthiness: a `null` nearest section
and an empty-string one are both dropped. -/
def processGroup (fs : List Char → Option (List Char)) (file : List Char)
    (ms : List SearchResult) : GroupedSearchResult :=
  match fs file with
  | some content =>
    ⟨file, extractTitle content, ms.length,
     (dedupKeepFirst (ms.filterMap (fun m =>
        match findNearestSection (extractHeaders content) m.line with
        | some sec => if sec.isEmpty then none else some sec
        | none => none))).take 5,
     (ms.take 3).map truncateMatch⟩
  | none =>
    ⟨file, fallbackTitle file, ms.length, [], (ms.take 3).map truncateMatch⟩

/-- Comparator of the final sort, `(a, b) => b.matchCount - a.matchCount`
(descending, stable): `a` may precede `b` iff `b` does not strictly beat
it. -/
def groupedLe (a b : GroupedSearchResult) : Bool :=
  decide (b.matchCount ≤ a.matchCount)

/-- Grouping stage of `searchHackTricksGrouped`: group the raw records by
file, build each group, sort by match count descending, truncate to
`limit`. -/
def groupRawResults (fs : List Char → Option (List Char)) (raw : List SearchResult)
    (limit : Nat) : List GroupedSearchResult :=
  (sortBy groupedLe ((groupByFile raw).map (fun g => processGroup fs g.1 g.2))).take limit

/-- `searchHackTricksGrouped(query, category?, limit)`: fetch raw results
with the inflated cap `limit * 3`, then group. -/
def searchHackTricksGrouped (root : List Char) (fs : List Char → Option (List Char))
    (engine : ExecCall → EngineOutcome) (query : List Char)
    (category : Option (List Char)) (limit : Nat) :
    Except SearchError (List GroupedSearchResult) :=
  (searchHackTricks root engine query category (limit * 3)).map
    (fun raw => groupRawResults fs raw limit)

/-! ## Path safety gate (src/index.ts lines 279-312) -/

/-- Errors of `getPage`. -/
inductive PageError where
  | emptyPath
  | invalidPath
  | escapesRoot
  | notFound (path : List Char)
  | isDirectory (path : List Char)
  | ioFailure (msg : List Char)
deriving DecidableEq

/-- Outcome of a file read attempt. -/
inductive FsReadResult where
  | ok (content : List Char)
  | enoent
  | eisdir
  | otherErr (msg : List Char)
deriving DecidableEq

/-- `path.replace(/\\/g, "/")`: global single-character replacement. -/
def slashToFwd (c : Char) : Char := if c == '\\' then '/' else c

/-- `getPage(path)`: reject empty/whitespace paths, normalize backslashes,
reject any path containing ".." or starting with "/" before any
filesystem access, join with the corpus root (modelled as concatenation:
the rejected ".." segments are the only upward normalization `join` could
perform), re-check containment, then read through the oracle and classify
ENOENT / EISDIR / other failures. -/
def getPage (root : List Char) (fs : List Char → FsReadResult) (path : List Char) :
    Except PageError (List Char) :=
  if path.isEmpty || (trimList path).isEmpty then .error .emptyPath
  else
    let normalizedPath := path.map slashToFwd
    if containsSub normalizedPath (("..").data) || (("/").data).isPrefixOf normalizedPath then
      .error .invalidPath
    else
      let filePath := root ++ ('/') :: normalizedPath
      if !(root.isPrefixOf filePath) then .error .escapesRoot
      else
        match fs filePath with
        | .ok content => .ok content
        | .enoent => .error (.notFound path)
        | .eisdir => .error (.isDirectory path)
        | .otherErr msg => .error (.ioFailure msg)

/-! ## Category tree builder (src/index.ts lines 355-400) -/

/-- A directory listing as `readdir(..., { withFileTypes: true })` exposes
it: entries are files or directories, directories carry their own
listings. -/
inductive FsEntry where
  | file (name : List Char)
  | dir (name : List Char) (entries : List FsEntry)

/-- A node of the returned category tree; `children = none` embeds the JS
`children: undefined` (the field is omitted when the child list is
empty). -/
inductive CategoryTree where
  | file (name path : List Char)
  | dir (name path : List Char) (children : Option (List CategoryTree))

/-- Skipped entries: hidden names and the reserved `images` directory. -/
def isHiddenEntry (name : List Char) : Bool :=
  ((".").data).isPrefixOf name || name == ("images").data

/-- Sort rank: directories before files. -/
def treeType : CategoryTree → Nat
  | .dir _ _ _ => 0
  | .file _ _ => 1

/-- Name of a node (for sibling ordering). -/
def treeName : CategoryTree → List Char
  | .file n _ => n
  | .dir n _ _ => n

/-- Sibling comparator of `listDirectoryTree`: directories first, then
name order; `treeLe a b` holds when `a` may stably precede `b`. -/
def treeLe (a b : CategoryTree) : Bool :=
  !(if !(treeType b == treeType a) then decide (treeType b < treeType a)
    else lexLtChar (treeName b) (treeName a))

mutual

/-- Per-entry body of the `listDirectoryTree` loop.  `pre` is the relative
path of the directory being listed (`fullPath.replace(basePath + "/", "")`
of the parent), `d` the current depth, `m` the maximum depth.  A directory
node is always produced (when not hidden); only its `children` field
collapses to `none` when the recursive listing is empty. -/
def buildOne : FsEntry → List Char → Nat → Nat → Option CategoryTree
  | .file name, pre, _, _ =>
    if isHiddenEntry name then none
    else if ((".md").data).isSuffixOf name then some (.file name (pre ++ ('/') :: name))
    else none
  | .dir name sub, pre, d, m =>
    if isHiddenEntry name then none
    else
      let p := pre ++ ('/') :: name
      let children := if m < d + 1 then [] else sortBy treeLe (buildList sub p (d + 1) m)
      some (.dir name p (if 0 < children.length then some children else none))

/-- The entry loop of `listDirectoryTree` (before the final sort). -/
def buildList : List FsEntry → List Char → Nat → Nat → List CategoryTree
  | [], _, _, _ => []
  | e :: rest, pre, d, m =>
    match buildOne e pre d m with
    | some t => t :: buildList rest pre d m
    | none => buildList rest pre d m

end

/-- `listDirectoryTree(dirPath, basePath, depth, maxDepth)`: empty when the
depth bound is exceeded, otherwise the processed entries sorted
(directories first, then by name). -/
def listDirectoryTree (entries : List FsEntry) (pre : List Char)
    (depth maxDepth : Nat) : List CategoryTree :=
  if maxDepth < depth then [] else sortBy treeLe (buildList entries pre depth maxDepth)

mutual

/-- No node of a tree carries an explicit empty child list: `children` is
either absent (`none`) or non-empty and recursively well-formed. -/
def childrenOk : CategoryTree → Bool
  | .file _ _ => true
  | .dir _ _ none => true
  | .dir _ _ (some cs) => !cs.isEmpty && childrenAllOk cs

/-- `childrenOk` over a list of nodes. -/
def childrenAllOk : List CategoryTree → Bool
  | [] => true
  | t :: ts => childrenOk t && childrenAllOk ts

end

/-! ## Quick lookup, content-extraction stage (src/index.ts lines 448-565) -/

/-- The fixed priority vocabulary `PRIORITY_SECTIONS`. -/
def PRIORITY_SECTIONS : List (List Char) :=
  [("exploitation").data, ("exploit").data, ("example").data, ("poc").data,
   ("proof of concept").data, ("payload").data, ("bypass").data, ("attack").data,
   ("abuse").data, ("technique").data]

/-- `PRIORITY_SECTIONS.some((p) => headerLower.includes(p))`. -/
def isPriorityHeader (text : List Char) : Bool :=
  PRIORITY_SECTIONS.any (fun p => containsSub (lowerList text) p)

/-- The priority-section loop of `quickLookup`: for each header whose text
contains a priority term, extract its section and keep it only when its
length exceeds 50 characters (`section.length > 50`). -/
def quickLookupPrioritySections (content : List Char) : List (List Char) :=
  (extractHeaders content).filterMap (fun h =>
    if isPriorityHeader h.text then
      match extractSection content h.text with
      | some s => if 50 < s.length then some s else none
      | none => none
    else none)

/-- The full section-selection stage of `quickLookup`: the priority loop,
then (when it found nothing and the document has a second header) the
fallback extraction of the section after the title header, with no length
check. -/
def quickLookupSections (content : List Char) : List (List Char) :=
  let headers := extractHeaders content
  let extracted := quickLookupPrioritySections content
  if extracted.isEmpty ∧ 1 < headers.length then
    match headers.get? 1 with
    | some h =>
      match extractSection content h.text with
      | some s => [s]
      | none => []
    | none => []
  else extracted

/-! ## Helper lemmas -/

/-- An element failing the predicate survives `dropWhile`. -/
theorem mem_dropWhile_of_neg {α : Type} (p : α → Bool) :
    ∀ (l : List α) (c : α), c ∈ l → p c = false → c ∈ l.dropWhile p := by
  intro l
  induction l with
  | nil => intro c hc; cases hc
  | cons a t ih =>
    intro c hc hpc
    rw [List.dropWhile_cons]
    by_cases hpa : p a = true
    · rcases List.mem_cons.mp hc with hca | hct
      · subst hca; rw [hpc] at hpa; cases hpa
      · simp only [hpa, if_true]; exact ih c hct hpc
    · simp only [hpa, if_false]; exact hc

/-- A string holding a non-whitespace character does not trim to empty. -/
theorem trimList_ne_nil {l : List Char} {c : Char} (hc : c ∈ l) (hw : isWs c = false) :
    trimList l ≠ [] := by
  have h1 : c ∈ l.dropWhile isWs := mem_dropWhile_of_neg isWs l c hc hw
  have h2 : c ∈ (l.dropWhile isWs).reverse := List.mem_reverse.mpr h1
  have h3 : c ∈ (l.dropWhile isWs).reverse.dropWhile isWs :=
    mem_dropWhile_of_neg isWs _ c h2 hw
  exact List.ne_nil_of_mem (List.mem_reverse.mpr h3)

/-- Every character of a detected substring occurs in the searched string. -/
theorem containsSub_subset :
    ∀ (s p : List Char), containsSub s p = true → ∀ c ∈ p, c ∈ s := by
  intro s
  induction s with
  | nil =>
    intro p hp c hc
    simp only [containsSub, List.isEmpty_iff] at hp
    subst hp; cases hc
  | cons a t ih =>
    intro p hp c hc
    simp only [containsSub, Bool.or_eq_true] at hp
    rcases hp with hp | hp
    · exact (List.isPrefixOf_iff_prefix.mp hp).subset hc
    · exact List.mem_cons_of_mem a (ih p hp c hc)

/-- Character-wise mapping preserves substring containment. -/
theorem containsSub_map (f : Char → Char) :
    ∀ (s p : List Char), containsSub s p = true → containsSub (s.map f) (p.map f) = true := by
  intro s
  induction s with
  | nil =>
    intro p hp
    simp only [containsSub, List.isEmpty_iff] at hp
    subst hp; rfl
  | cons a t ih =>
    intro p hp
    simp only [containsSub, Bool.or_eq_true] at hp
    simp only [List.map_cons, containsSub, Bool.or_eq_true]
    rcases hp with hp | hp
    · exact Or.inl (List.isPrefixOf_iff_prefix.mpr
        (by simpa using (List.isPrefixOf_iff_prefix.mp hp).map f))
    · exact Or.inr (ih p hp)

/-- Membership in a stable insertion is membership in the parts. -/
theorem mem_insertSortedBy {α : Type} (le : α → α → Bool) (a x : α) :
    ∀ (l : List α), x ∈ insertSortedBy le a l ↔ x = a ∨ x ∈ l := by
  intro l
  induction l with
  | nil => simp [insertSortedBy]
  | cons b t ih =>
    simp only [insertSortedBy]
    by_cases h : le a b = true
    · simp [h]
    · rw [if_neg h]
      simp only [List.mem_cons, ih]
      tauto

/-- Sorting permutes membership. -/
theorem mem_sortBy {α : Type} (le : α → α → Bool) (x : α) :
    ∀ (l : List α), x ∈ sortBy le l ↔ x ∈ l := by
  intro l
  induction l with
  | nil => simp [sortBy]
  | cons a t ih =>
    simp only [sortBy, mem_insertSortedBy, ih, List.mem_cons]

/-- The `Set`-style accumulator stays duplicate-free. -/
theorem nodup_foldl_addUnique :
    ∀ (xs : List (List Char)) (acc : List (List Char)),
      acc.Nodup → (xs.foldl addUnique acc).Nodup := by
  intro xs
  induction xs with
  | nil => intro acc h; exact h
  | cons x t ih =>
    intro acc h
    simp only [List.foldl_cons]
    apply ih
    unfold addUnique
    by_cases hx : x ∈ acc
    · simpa [hx] using h
    · simp only [hx, if_false]
      exact List.Nodup.append h (List.nodup_singleton x)
        (by simpa [List.disjoint_singleton] using hx)

/-- First-seen-order deduplication is duplicate-free. -/
theorem dedupKeepFirst_nodup (xs : List (List Char)) : (dedupKeepFirst xs).Nodup :=
  nodup_foldl_addUnique xs [] List.nodup_nil

/-! ## Claim theorems -/

/-- C5: `extractSection` is a pure function of the document text and
section name; evaluating it twice on the same inputs yields identical
output byte for byte (the embedding has no state or randomness to vary
between calls). -/
theorem extractSection_deterministic (content sectionName : List Char) :
    extractSection content sectionName = extractSection content sectionName := rfl

/-- C2: the search invocation hands the external engine the exact query
string as one discrete element of the `execFile` argument vector (position
4, after the fixed flags), never concatenated into a shell command line;
consequently the observable result of `searchHackTricks` depends on the
engine only through its response to that single structured call, for any
query, including queries holding shell metacharacters. -/
theorem searchHackTricks_query_discrete_argument (query scope : List Char) :
    (rgCall query scope).program = ("rg").data ∧
    (rgCall query scope).args =
      [("-n").data, ("-i").data, ("--type").data, ("md").data, query, scope] ∧
    (rgCall query scope).args.get? 4 = some query ∧
    (∀ (root : List Char) (engine engine' : ExecCall → EngineOutcome)
       (category : Option (List Char)) (limit : Nat),
       engine (rgCall query (searchScope root category)) =
         engine' (rgCall query (searchScope root category)) →
       searchHackTricks root engine query category limit =
         searchHackTricks root engine' query category limit) := by
  refine ⟨rfl, rfl, rfl, ?_⟩
  intro root engine engine' category limit h
  simp only [searchHackTricks, h]

/-- Engine stub for the C2 witness: answers "no matches" exactly when the
pattern argument is the metacharacter-laden query, fails otherwise. -/
def c2engine : ExecCall → EngineOutcome :=
  fun c =>
    if c.args.get? 4 = some (("a; rm -rf /").data) then EngineOutcome.noMatches
    else EngineOutcome.failed (("unexpected pattern").data)

/-- Witness for C2 at a query full of shell metacharacters. -/
theorem searchHackTricks_query_discrete_argument_witness :
    searchHackTricks (("ht").data) c2engine (("a; rm -rf /").data) none 50 =
      searchHackTricks (("ht").data) (fun _ => EngineOutcome.noMatches)
        (("a; rm -rf /").data) none 50 :=
  (searchHackTricks_query_discrete_argument (("a; rm -rf /").data)
      (searchScope (("ht").data) none)).2.2.2
    (("ht").data) c2engine (fun _ => EngineOutcome.noMatches) none 50 (by decide)

/-- C7: a query that is empty or whitespace-only is rejected with the
empty-query error for every possible engine, so the external search engine
is never consulted (the result is the same whatever the engine would
answer). -/
theorem searchHackTricks_rejects_empty_query (query : List Char)
    (h : trimList query = []) :
    ∀ (root : List Char) (engine : ExecCall → EngineOutcome)
      (category : Option (List Char)) (limit : Nat),
      searchHackTricks root engine query category limit =
        .error SearchError.emptyQuery := by
  intro root engine category limit
  simp [searchHackTricks, h]

/-- Witness for C7: the whitespace-only query "   " is rejected even
against an engine that would report a hard failure. -/
theorem searchHackTricks_rejects_empty_query_witness :
    searchHackTricks (("ht").data) (fun _ => EngineOutcome.failed (("boom").data))
      (("   ").data) none 50 = .error SearchError.emptyQuery :=
  searchHackTricks_rejects_empty_query (("   ").data) (by decide)
    (("ht").data) (fun _ => EngineOutcome.failed (("boom").data)) none 50

/-- C9: whenever the grouped search succeeds, it returns at most `limit`
grouped results, however many files matched. -/
theorem searchHackTricksGrouped_limit (root : List Char)
    (fs : List Char → Option (List Char)) (engine : ExecCall → EngineOutcome)
    (query : List Char) (category : Option (List Char)) (limit : Nat)
    (gs : List GroupedSearchResult)
    (h : searchHackTricksGrouped root fs engine query category limit = .ok gs) :
    gs.length ≤ limit := by
  unfold searchHackTricksGrouped at h
  cases hs : searchHackTricks root engine query category (limit * 3) with
  | error e => rw [hs] at h; cases h
  | ok raw =>
    rw [hs] at h
    simp only [Except.map] at h
    cases h
    exact List.length_take_le limit _

/-- Witness for C9 at `limit = 5` with an engine reporting no matches. -/
theorem searchHackTricksGrouped_limit_witness :
    searchHackTricksGrouped (("ht").data) (fun _ => none)
        (fun _ => EngineOutcome.noMatches) (("x").data) none 5 = Except.ok [] ∧
      ([] : List GroupedSearchResult).length ≤ 5 :=
  ⟨by rfl,
   searchHackTricksGrouped_limit (("ht").data) (fun _ => none)
     (fun _ => EngineOutcome.noMatches) (("x").data) none 5 [] (by rfl)⟩

/-- C1: any requested page path that contains ".." or begins with "/" is
rejected with the invalid-path error before any filesystem operation: the
result is the same for every filesystem oracle. -/
theorem getPage_rejects_traversal (root : List Char) (fs : List Char → FsReadResult)
    (path : List Char)
    (h : containsSub path (("..").data) = true ∨ (("/").data).isPrefixOf path = true) :
    getPage root fs path = .error PageError.invalidPath := by
  have hmem : ∃ c, c ∈ path ∧ isWs c = false := by
    rcases h with h | h
    · exact ⟨'.', containsSub_subset path _ h '.' (by decide), by decide⟩
    · exact ⟨'/', (List.isPrefixOf_iff_prefix.mp h).subset (by decide), by decide⟩
  obtain ⟨c, hc, hw⟩ := hmem
  have h1 : path.isEmpty = false := by
    cases path with
    | nil => cases hc
    | cons a t => rfl
  have h2 : (trimList path).isEmpty = false := by
    cases htl : trimList path with
    | nil => exact absurd htl (trimList_ne_nil hc hw)
    | cons a t => rfl
  have hguard : (containsSub (path.map slashToFwd) (("..").data)
      || (("/").data).isPrefixOf (path.map slashToFwd)) = true := by
    rcases h with h | h
    · have hm := containsSub_map slashToFwd path (("..").data) h
      have heq : (("..").data).map slashToFwd = ("..").data := by decide
      rw [heq] at hm
      simp [hm]
    · have hpre : (("/").data).map slashToFwd <+: path.map slashToFwd :=
        (List.isPrefixOf_iff_prefix.mp h).map slashToFwd
      have heq : (("/").data).map slashToFwd = ("/").data := by decide
      rw [heq] at hpre
      simp [List.isPrefixOf_iff_prefix.mpr hpre]
  simp [getPage, h1, h2, hguard]

/-- Witness for C1 at the three paths named by the specification. -/
theorem getPage_rejects_traversal_witness :
    getPage (("ht").data) (fun _ => FsReadResult.enoent) (("../../../etc/passwd").data) =
      .error PageError.invalidPath ∧
    getPage (("ht").data) (fun _ => FsReadResult.enoent) (("/etc/passwd").data) =
      .error PageError.invalidPath ∧
    getPage (("ht").data) (fun _ => FsReadResult.enoent) (("src/../../..").data) =
      .error PageError.invalidPath :=
  ⟨getPage_rejects_traversal _ _ _ (Or.inl (by decide)),
   getPage_rejects_traversal _ _ _ (Or.inr (by decide)),
   getPage_rejects_traversal _ _ _ (Or.inl (by decide))⟩

/-- Structural invariants of one grouped result, whichever way the file
read went. -/
theorem processGroup_invariants (fs : List Char → Option (List Char)) (file : List Char)
    (ms : List SearchResult) :
    (processGroup fs file ms).topMatches.length ≤ 3 ∧
    (processGroup fs file ms).topMatches.length ≤ (processGroup fs file ms).matchCount ∧
    (processGroup fs file ms).relevantSections.length ≤ 5 ∧
    (processGroup fs file ms).relevantSections.Nodup := by
  rcases hfs : fs file with _ | content <;>
    simp only [processGroup, hfs] <;>
    refine ⟨?_, ?_, ?_, ?_⟩
  · simp only [List.length_map, List.length_take]; omega
  · simp only [List.length_map, List.length_take]; omega
  · simp
  · simp
  · simp only [List.length_map, List.length_take]; omega
  · simp only [List.length_map, List.length_take]; omega
  · exact List.length_take_le 5 _
  · exact List.Nodup.sublist (List.take_sublist 5 _) (dedupKeepFirst_nodup _)

/-- C4: every grouped result returned by the grouped search has at most 3
preview matches, a match count at least as large as the preview list, at
most 5 relevant sections, and no duplicate section names. -/
theorem searchGrouped_result_invariants (root : List Char)
    (fs : List Char → Option (List Char)) (engine : ExecCall → EngineOutcome)
    (query : List Char) (category : Option (List Char)) (limit : Nat)
    (gs : List GroupedSearchResult)
    (hok : searchHackTricksGrouped root fs engine query category limit = .ok gs)
    (g : GroupedSearchResult) (hg : g ∈ gs) :
    g.topMatches.length ≤ 3 ∧ g.topMatches.length ≤ g.matchCount ∧
    g.relevantSections.length ≤ 5 ∧ g.relevantSections.Nodup := by
  unfold searchHackTricksGrouped at hok
  cases hs : searchHackTricks root engine query category (limit * 3) with
  | error e => rw [hs] at hok; cases hok
  | ok raw =>
    rw [hs] at hok
    simp only [Except.map] at hok
    cases hok
    unfold groupRawResults at hg
    have h1 := (List.take_sublist limit _).subset hg
    obtain ⟨p, hp, hpg⟩ := List.mem_map.mp ((mem_sortBy groupedLe g _).mp h1)
    rw [← hpg]
    exact processGroup_invariants fs p.1 p.2

/-- Engine stub for the C4 witness: one matching line in one file. -/
def c4engine : ExecCall → EngineOutcome :=
  fun _ => EngineOutcome.success (("a.md:1:hit").data)

/-- The grouped result the C4 witness pipeline produces (file read fails,
so the degraded branch is exercised). -/
def c4group : GroupedSearchResult :=
  ⟨("a.md").data, ("a").data, 1, [], [⟨1, ("hit").data⟩]⟩

/-- Witness for C4 on a concrete end-to-end grouped search. -/
theorem searchGrouped_result_invariants_witness :
    c4group.topMatches.length ≤ 3 ∧ c4group.topMatches.length ≤ c4group.matchCount ∧
    c4group.relevantSections.length ≤ 5 ∧ c4group.relevantSections.Nodup :=
  searchGrouped_result_invariants (("ht").data) (fun _ => none) c4engine
    (("hit").data) none 5 [c4group] (by rfl) c4group (List.mem_singleton.mpr rfl)

/-- Accumulator lemma for the `findNearestSection` loop: starting from an
accepted header at or before the target and scanning headers that are all
at or after it and sorted, the loop returns a header at or before the
target that dominates every scanned header at or before the target. -/
theorem findNearestSectionAux_spec :
    ∀ (hs : List Header) (acc : Header) (t : Nat),
      acc.line ≤ t →
      (∀ h' ∈ hs, acc.line ≤ h'.line) →
      List.Pairwise (fun a b => a.line ≤ b.line) hs →
      ∃ r, findNearestSectionAux (some acc) hs t = some r ∧ r.line ≤ t ∧
        (r = acc ∨ r ∈ hs) ∧ acc.line ≤ r.line ∧
        ∀ h' ∈ hs, h'.line ≤ t → h'.line ≤ r.line := by
  intro hs
  induction hs with
  | nil =>
    intro acc t hacc _ _
    exact ⟨acc, rfl, hacc, Or.inl rfl, le_refl _, by intro h' hh'; cases hh'⟩
  | cons h rest ih =>
    intro acc t hacc hlo hpw
    obtain ⟨hhd, hpw'⟩ := List.pairwise_cons.mp hpw
    have hacch : acc.line ≤ h.line := hlo h (List.mem_cons_self _ _)
    by_cases hle : h.line ≤ t
    · obtain ⟨r, hr, hrt, hmem, hhr, hmax⟩ := ih h t hle hhd hpw'
      refine ⟨r, ?_, hrt, ?_, ?_, ?_⟩
      · simp only [findNearestSectionAux, if_pos hle]; exact hr
      · rcases hmem with rfl | hmem
        · exact Or.inr (List.mem_cons_self _ _)
        · exact Or.inr (List.mem_cons_of_mem h hmem)
      · exact le_trans hacch hhr
      · intro h' hh' hht
        rcases List.mem_cons.mp hh' with rfl | hh'
        · exact hhr
        · exact hmax h' hh' hht
    · refine ⟨acc, ?_, hacc, Or.inl rfl, le_refl _, ?_⟩
      · simp only [findNearestSectionAux, if_neg hle]
      · intro h' hh' hht
        rcases List.mem_cons.mp hh' with rfl | hh'
        · omega
        · have := hhd h' hh'
          omega

/-- C6: on a header list sorted by line number, `findNearestSection`
returns the text of a header with the greatest line number at or before
the target line, and `none` exactly when every header lies past the
target. -/
theorem findNearestSection_greatest (hs : List Header) (t : Nat)
    (hsorted : List.Pairwise (fun a b => a.line ≤ b.line) hs) :
    (findNearestSection hs t = none ↔ ∀ h ∈ hs, t < h.line) ∧
    ∀ s, findNearestSection hs t = some s →
      ∃ h ∈ hs, h.text = s ∧ h.line ≤ t ∧
        ∀ h' ∈ hs, h'.line ≤ t → h'.line ≤ h.line := by
  cases hs with
  | nil =>
    refine ⟨?_, ?_⟩
    · simp [findNearestSection, findNearestSectionAux]
    · intro s hsome; cases hsome
  | cons h rest =>
    obtain ⟨hhd, hpw⟩ := List.pairwise_cons.mp hsorted
    by_cases hle : h.line ≤ t
    · obtain ⟨r, hr, hrt, hmem, hhr, hmax⟩ :=
        findNearestSectionAux_spec rest h t hle hhd hpw
      have hfind : findNearestSection (h :: rest) t = some r.text := by
        simp only [findNearestSection, findNearestSectionAux, if_pos hle, hr,
          Option.map_some']
      refine ⟨⟨?_, ?_⟩, ?_⟩
      · intro hn; rw [hfind] at hn; cases hn
      · intro hall; exact absurd hle (not_le.mpr (hall h (List.mem_cons_self _ _)))
      · intro s hsome
        rw [hfind] at hsome
        refine ⟨r, ?_, Option.some.inj hsome, hrt, ?_⟩
        · rcases hmem with rfl | hmem
          · exact List.mem_cons_self _ _
          · exact List.mem_cons_of_mem h hmem
        · intro h' hh' hht
          rcases List.mem_cons.mp hh' with rfl | hh'
          · exact hhr
          · exact hmax h' hh' hht
    · have hfind : findNearestSection (h :: rest) t = none := by
        simp only [findNearestSection, findNearestSectionAux, if_neg hle,
          Option.map_none']
      refine ⟨⟨?_, fun _ => hfind⟩, ?_⟩
      · intro _ h' hh'
        rcases List.mem_cons.mp hh' with rfl | hh'
        · omega
        · have := hhd h' hh'
          omega
      · intro s hsome; rw [hfind] at hsome; cases hsome

/-- Header list of the C6 witness: lines 1, 10, 20 at levels 1, 2, 2. -/
def c6headers : List Header :=
  [⟨1, ("Intro").data, 1⟩, ⟨2, ("Mid").data, 10⟩, ⟨2, ("End").data, 20⟩]

/-- Witness for C6: target 15 selects the line-10 header, target 0 yields
none. -/
theorem findNearestSection_greatest_witness :
    (∃ h ∈ c6headers, h.text = ("Mid").data ∧ h.line ≤ 15 ∧
       ∀ h' ∈ c6headers, h'.line ≤ 15 → h'.line ≤ h.line) ∧
    findNearestSection c6headers 0 = none :=
  ⟨(findNearestSection_greatest c6headers 15 (by decide)).2 (("Mid").data) (by decide),
   ((findNearestSection_greatest c6headers 0 (by decide)).1).mpr (by decide)⟩

/-- `childrenAllOk` is the pointwise conjunction of `childrenOk`. -/
theorem childrenAllOk_iff :
    ∀ (cs : List CategoryTree), childrenAllOk cs = true ↔ ∀ t ∈ cs, childrenOk t = true := by
  intro cs
  induction cs with
  | nil => simp [childrenAllOk]
  | cons t ts ih =>
    simp only [childrenAllOk, Bool.and_eq_true, ih, List.mem_cons]
    constructor
    · rintro ⟨h1, h2⟩ u (rfl | hu)
      · exact h1
      · exact h2 u hu
    · intro h
      exact ⟨h t (Or.inl rfl), fun u hu => h u (Or.inr hu)⟩

/-- A kept entry of the loop appears in the loop's output. -/
theorem buildOne_mem_buildList :
    ∀ (entries : List FsEntry) (e : FsEntry) (pre : List Char) (d m : Nat)
      (t : CategoryTree),
      e ∈ entries → buildOne e pre d m = some t → t ∈ buildList entries pre d m := by
  intro entries
  induction entries with
  | nil => intro e pre d m t he; cases he
  | cons a rest ih =>
    intro e pre d m t he hb
    rcases List.mem_cons.mp he with rfl | he
    · have : buildList (e :: rest) pre d m = t :: buildList rest pre d m := by
        simp [buildList, hb]
      rw [this]
      exact List.mem_cons_self _ _
    · cases hba : buildOne a pre d m with
      | some u =>
        have : buildList (a :: rest) pre d m = u :: buildList rest pre d m := by
          simp [buildList, hba]
        rw [this]
        exact List.mem_cons_of_mem u (ih e pre d m t he hb)
      | none =>
        have : buildList (a :: rest) pre d m = buildList rest pre d m := by
          simp [buildList, hba]
        rw [this]
        exact ih e pre d m t he hb

/-- Every output of the loop comes from some kept entry. -/
theorem mem_buildList_exists :
    ∀ (entries : List FsEntry) (pre : List Char) (d m : Nat) (t : CategoryTree),
      t ∈ buildList entries pre d m → ∃ e ∈ entries, buildOne e pre d m = some t := by
  intro entries
  induction entries with
  | nil => intro pre d m t ht; cases ht
  | cons a rest ih =>
    intro pre d m t ht
    cases hba : buildOne a pre d m with
    | some u =>
      have heq : buildList (a :: rest) pre d m = u :: buildList rest pre d m := by
        simp [buildList, hba]
      rw [heq] at ht
      rcases List.mem_cons.mp ht with rfl | ht
      · exact ⟨a, List.mem_cons_self _ _, hba⟩
      · obtain ⟨e, he, hbe⟩ := ih pre d m t ht
        exact ⟨e, List.mem_cons_of_mem a he, hbe⟩
    | none =>
      have heq : buildList (a :: rest) pre d m = buildList rest pre d m := by
        simp [buildList, hba]
      rw [heq] at ht
      obtain ⟨e, he, hbe⟩ := ih pre d m t ht
      exact ⟨e, List.mem_cons_of_mem a he, hbe⟩

/-- Every node built by the tree walk satisfies `childrenOk`: its child
list is absent or non-empty, recursively (strong induction on the size of
the walked entry). -/
theorem buildOne_childrenOk :
    ∀ (n : Nat) (e : FsEntry) (pre : List Char) (d m : Nat) (t : CategoryTree),
      sizeOf e ≤ n → buildOne e pre d m = some t → childrenOk t = true := by
  intro n
  induction n with
  | zero =>
    intro e pre d m t hs _
    exfalso
    cases e <;> simp at hs
  | succ n ih =>
    intro e pre d m t hs hb
    cases e with
    | file name =>
      simp only [buildOne] at hb
      by_cases hh : isHiddenEntry name = true
      · rw [if_pos hh] at hb; cases hb
      · rw [if_neg hh] at hb
        by_cases hmd : (((".md").data).isSuffixOf name) = true
        · rw [if_pos hmd] at hb
          cases hb
          rfl
        · rw [if_neg hmd] at hb; cases hb
    | dir name sub =>
      simp only [buildOne] at hb
      by_cases hh : isHiddenEntry name = true
      · rw [if_pos hh] at hb; cases hb
      · rw [if_neg hh] at hb
        cases hb
        by_cases hlen : 0 < (if m < d + 1 then []
            else sortBy treeLe (buildList sub (pre ++ ('/') :: name) (d + 1) m)).length
        · rw [if_pos hlen]
          simp only [childrenOk, Bool.and_eq_true]
          constructor
          · cases hc : (if m < d + 1 then []
                else sortBy treeLe (buildList sub (pre ++ ('/') :: name) (d + 1) m)) with
            | nil => rw [hc] at hlen; cases hlen
            | cons x xs => rfl
          · rw [childrenAllOk_iff]
            intro u hu
            by_cases hdm : m < d + 1
            · rw [if_pos hdm] at hu; cases hu
            · rw [if_neg hdm] at hu
              obtain ⟨e', he', hbe'⟩ :=
                mem_buildList_exists sub (pre ++ ('/') :: name) (d + 1) m u
                  ((mem_sortBy treeLe u _).mp hu)
              have hsz : sizeOf e' ≤ n := by
                have h1 := List.sizeOf_lt_of_mem he'
                have h2 : sizeOf (FsEntry.dir name sub) = 1 + sizeOf name + sizeOf sub := by
                  simp
                omega
              exact ih e' (pre ++ ('/') :: name) (d + 1) m u hsz hbe'
        · rw [if_neg hlen]
          rfl

/-- Directory listing used by the C3 analysis: one visible subdirectory
holding only a non-markdown file, so its children collapse to empty after
filtering. -/
def c3entries : List FsEntry :=
  [FsEntry.dir (("a").data) [FsEntry.file (("x.txt").data)]]

/-- Counterexample to C3 as stated: walking a directory below the top
level whose only subdirectory `a` keeps zero children after filtering, the
returned tree still contains the directory node for `a` (with its children
field absent), so a directory node with zero children does appear in the
returned tree. -/
theorem listDirectoryTree_childless_dir_counterexample :
    listDirectoryTree c3entries (("src/web").data) 0 3 =
      [CategoryTree.dir (("a").data) (("src/web/a").data) none] := by rfl

/-- C3 (amended): a directory entry whose children collapse to empty after
filtering is not omitted — it is returned as a node whose children field
is absent (`none`); what never appears anywhere in the returned tree is a
node carrying an explicitly empty children list. -/
theorem listDirectoryTree_keeps_childless_dirs (entries : List FsEntry)
    (pre : List Char) (d m : Nat) :
    (∀ t ∈ listDirectoryTree entries pre d m, childrenOk t = true) ∧
    (∀ (name : List Char) (sub : List FsEntry),
       FsEntry.dir name sub ∈ entries → isHiddenEntry name = false → d ≤ m →
       ∃ c, CategoryTree.dir name (pre ++ ('/') :: name) c ∈
           listDirectoryTree entries pre d m ∧ c ≠ some []) := by
  constructor
  · intro t ht
    unfold listDirectoryTree at ht
    by_cases hdm : m < d
    · rw [if_pos hdm] at ht; cases ht
    · rw [if_neg hdm] at ht
      obtain ⟨e, he, hbe⟩ :=
        mem_buildList_exists entries pre d m t ((mem_sortBy treeLe t _).mp ht)
      exact buildOne_childrenOk (sizeOf e) e pre d m t (le_refl _) hbe
  · intro name sub hmem hhid hdm
    have hb : ∃ c, buildOne (FsEntry.dir name sub) pre d m =
        some (CategoryTree.dir name (pre ++ ('/') :: name) c) ∧ c ≠ some [] := by
      simp only [buildOne, hhid, Bool.false_eq_true, if_false]
      by_cases hlen : 0 < (if m < d + 1 then []
          else sortBy treeLe (buildList sub (pre ++ ('/') :: name) (d + 1) m)).length
      · refine ⟨some (if m < d + 1 then []
            else sortBy treeLe (buildList sub (pre ++ ('/') :: name) (d + 1) m)),
          by rw [if_pos hlen], ?_⟩
        intro hcontra
        rw [Option.some.inj hcontra] at hlen
        cases hlen
      · exact ⟨none, by rw [if_neg hlen], fun hcontra => Option.noConfusion hcontra⟩
    obtain ⟨c, hb, hcne⟩ := hb
    refine ⟨c, ?_, hcne⟩
    unfold listDirectoryTree
    rw [if_neg (not_lt.mpr hdm)]
    exact (mem_sortBy treeLe _ _).mpr
      (buildOne_mem_buildList entries (FsEntry.dir name sub) pre d m _ hmem hb)

/-- Witness for the amended C3 on the concrete listing: the childless
directory `a` is present in the output with its children field absent. -/
theorem listDirectoryTree_keeps_childless_dirs_witness :
    ∃ c, CategoryTree.dir (("a").data) ((("src/web").data) ++ ('/') :: (("a").data)) c ∈
        listDirectoryTree c3entries (("src/web").data) 0 3 ∧ c ≠ some [] :=
  (listDirectoryTree_keeps_childless_dirs c3entries (("src/web").data) 0 3).2
    (("a").data) [FsEntry.file (("x.txt").data)]
    (by simp [c3entries]) (by decide) (by omega)

/-- Document of the C8 analysis: one priority header whose section is
exactly 50 characters long ("# payload", a newline, and 40 characters of
body). -/
def c8content : List Char :=
  ("# payload\naaaaaaaaaaaaaaaaaaaaaaaaaaaaaaaaaaaaaaaa").data

/-- Counterexample to C8 as stated: the single header "payload" carries a
priority term and its extracted section is exactly 50 characters long, yet
the content-extraction stage of the quick lookup produces nothing — the
code keeps a section only when its length strictly exceeds 50
(`section.length > 50`), so a section of exactly 50 characters is skipped
although the claim requires every section of length at least 50 to be
included. -/
theorem quickLookup_skips_50_char_section :
    extractHeaders c8content = [⟨1, ("payload").data, 1⟩] ∧
    isPriorityHeader (("payload").data) = true ∧
    (extractSection c8content (("payload").data)).map List.length = some 50 ∧
    quickLookupSections c8content = [] := by decide

/-- C8 (amended): in the quick lookup's priority-extraction loop, the
section extracted for a priority header is kept exactly when its length
strictly exceeds 50 characters; sections of 50 or fewer characters are
skipped.  (The separate title fallback, which runs only when this loop
kept nothing, applies no length check.) -/
theorem quickLookupPrioritySections_gt50 (content : List Char) :
    (∀ s ∈ quickLookupPrioritySections content, 50 < s.length) ∧
    ∀ h ∈ extractHeaders content, isPriorityHeader h.text = true →
      ∀ s, extractSection content h.text = some s → 50 < s.length →
        s ∈ quickLookupPrioritySections content := by
  constructor
  · intro s hs
    obtain ⟨h, hh, hf⟩ := List.mem_filterMap.mp hs
    by_cases hp : isPriorityHeader h.text = true
    · rw [if_pos hp] at hf
      cases hsec : extractSection content h.text with
      | none => simp only [hsec] at hf; cases hf
      | some u =>
        simp only [hsec] at hf
        by_cases hlen : 50 < u.length
        · rw [if_pos hlen] at hf
          rw [← Option.some.inj hf]
          exact hlen
        · rw [if_neg hlen] at hf; cases hf
    · rw [if_neg hp] at hf; cases hf
  · intro h hh hp s hsec hlen
    refine List.mem_filterMap.mpr ⟨h, hh, ?_⟩
    rw [if_pos hp]
    simp only [hsec]
    rw [if_pos hlen]

/-- Document of the C8 witness: the same shape with a 51-character section
(41 characters of body), which the loop keeps. -/
def c8longContent : List Char :=
  ("# payload\naaaaaaaaaaaaaaaaaaaaaaaaaaaaaaaaaaaaaaaaa").data

/-- Witness for the amended C8: the 51-character section (here the whole
document) is kept by the priority loop. -/
theorem quickLookupPrioritySections_gt50_witness :
    c8longContent ∈ quickLookupPrioritySections c8longContent :=
  (quickLookupPrioritySections_gt50 c8longContent).2 ⟨1, ("payload").data, 1⟩
    (by decide) (by decide) c8longContent (by decide) (by decide)

/-- Indexing bridge: reading at `j` after dropping `n` lines reads `n+j`. -/
theorem getD_drop_char (ls : List (List Char)) (n j : Nat) :
    (ls.drop n).getD j ([] : List Char) = ls.getD (n + j) [] := by
  rw [List.getD_eq_getElem?_getD, List.getD_eq_getElem?_getD, List.getElem?_drop]

/-- Unfolding of the end-scan loop in terms of the boundary test. -/
theorem findEndFrom_cons (l : List Char) (rest : List (List Char)) (lv i total : Nat) :
    findEndFrom (l :: rest) lv i total =
      if boundaryHit l lv = true then i else findEndFrom rest lv (i + 1) total := by
  cases heb : endBoundaryLevel l with
  | none => simp [findEndFrom, boundaryHit, heb]
  | some k =>
    by_cases hk : k ≤ lv
    · simp [findEndFrom, boundaryHit, heb, hk]
    · simp [findEndFrom, boundaryHit, heb, hk]

/-- The end-scan loop returns either `total` when no scanned line passes
the boundary test, or the absolute index of the first line that does. -/
theorem findEndFrom_spec :
    ∀ (tail : List (List Char)) (lv i total : Nat),
      (findEndFrom tail lv i total = total ∧
        ∀ j, j < tail.length → boundaryHit (tail.getD j []) lv = false) ∨
      (∃ j, j < tail.length ∧ findEndFrom tail lv i total = i + j ∧
        boundaryHit (tail.getD j []) lv = true ∧
        ∀ j', j' < j → boundaryHit (tail.getD j' []) lv = false) := by
  intro tail
  induction tail with
  | nil =>
    intro lv i total
    left
    exact ⟨rfl, by intro j hj; cases hj⟩
  | cons l rest ih =>
    intro lv i total
    rw [findEndFrom_cons]
    by_cases hb : boundaryHit l lv = true
    · right
      refine ⟨0, by simp, by rw [if_pos hb]; omega, by simpa using hb, ?_⟩
      intro j' hj'
      omega
    · rw [if_neg hb]
      have hbf : boundaryHit l lv = false := by
        cases hx : boundaryHit l lv
        · rfl
        · exact absurd hx hb
      rcases ih lv (i + 1) total with ⟨heq, hall⟩ | ⟨j0, hj0, heq, hhit, hbefore⟩
      · left
        refine ⟨heq, ?_⟩
        intro j hjlen
        cases j with
        | zero => simpa using hbf
        | succ j =>
          rw [List.getD_cons_succ]
          exact hall j (by simpa using Nat.lt_of_succ_lt_succ hjlen)
      · right
        refine ⟨j0 + 1, by simpa using Nat.succ_lt_succ hj0, by rw [heq]; omega, ?_, ?_⟩
        · rw [List.getD_cons_succ]; exact hhit
        · intro j' hj'
          cases j' with
          | zero => simpa using hbf
          | succ j' =>
            rw [List.getD_cons_succ]
            exact hbefore j' (Nat.lt_of_succ_lt_succ hj')

/-- Every line the header regex accepts also passes the end-boundary test
at the same level (the boundary test drops the text requirement). -/
theorem headerCapture_boundary (l : List Char) (k : Nat) (raw : List Char)
    (h : headerCapture l = some (k, raw)) : endBoundaryLevel l = some k := by
  simp only [headerCapture] at h
  simp only [endBoundaryLevel]
  split at h
  · cases h
  · rename_i hcond
    rw [if_neg hcond]
    split at h
    · split at h
      · cases Option.some.inj h
        rfl
      · cases h
    · split at h
      · cases Option.some.inj h
        rfl
      · cases h

/-- Document of the C10 analysis: a level-1 section followed by the line
"#  " (one hash, two spaces, no text). -/
def c10content : List Char := ("# Alpha\nbody\n#  \ntail").data

/-- Counterexample to C10 as stated: in this document the section opened
by "# Alpha" is terminated by line 3, "#  " (hashes followed only by
whitespace), as the claim describes — but `extractHeaders` does report
that text-less line as a header (with empty trimmed text, via regex
backtracking of `\s+(.+)$`), refuting the claim's assertion that
`extractHeaders` never reports such a terminating line. -/
theorem extractSection_boundary_counterexample :
    extractSection c10content (("Alpha").data) = some (("# Alpha\nbody").data) ∧
    extractHeaders c10content =
      [⟨1, ("Alpha").data, 1⟩, ⟨1, [], 3⟩] := by decide

/-- C10 (amended): when `extractSection` finds its start header (0-based
line `s`, level `lv`), the returned section runs up to (excluding) the
first subsequent line matching `^(#{1,6})\s+` at level `≤ lv` — a line
that needs no non-empty text after the whitespace; every line the header
regex accepts also passes this end-boundary test at the same level, so the
end-boundary test is weaker than the header-qualification test, and
strictly so: the text-less line "# " passes the boundary test but is not
a header.  A text-less terminating line is, however, not always
unreported: `extractHeaders` does report some of them — "#  " (hash and
two spaces) is a level-1 header whose capture is the single trailing
space — so only the strictly-weaker inclusion survives of the claim's
"never reports" assertion. -/
theorem extractSection_end_boundary (content name : List Char) (s lv : Nat)
    (hstart : findStart (splitLines content) (lowerList name) 0 = some (s, lv)) :
    extractSection content name =
      some (joinLines (((splitLines content).drop s).take
        (findEndFrom ((splitLines content).drop (s + 1)) lv (s + 1)
          (splitLines content).length - s))) ∧
    (∀ j, s < j →
       j < findEndFrom ((splitLines content).drop (s + 1)) lv (s + 1)
           (splitLines content).length →
       boundaryHit ((splitLines content).getD j []) lv = false) ∧
    (findEndFrom ((splitLines content).drop (s + 1)) lv (s + 1)
        (splitLines content).length < (splitLines content).length →
      boundaryHit ((splitLines content).getD
        (findEndFrom ((splitLines content).drop (s + 1)) lv (s + 1)
          (splitLines content).length) []) lv = true) ∧
    findEndFrom ((splitLines content).drop (s + 1)) lv (s + 1)
        (splitLines content).length ≤ (splitLines content).length ∧
    (∀ (l : List Char) (k : Nat) (raw : List Char),
       headerCapture l = some (k, raw) → endBoundaryLevel l = some k) ∧
    endBoundaryLevel [('#'), (' ')] = some 1 ∧
    headerCapture [('#'), (' ')] = none ∧
    headerCapture [('#'), (' '), (' ')] = some (1, [(' ')]) := by
  have hdlen : ((splitLines content).drop (s + 1)).length
      = (splitLines content).length - (s + 1) := List.length_drop _ _
  have hspec := findEndFrom_spec ((splitLines content).drop (s + 1)) lv (s + 1)
    (splitLines content).length
  have hc1 : extractSection content name =
      some (joinLines (((splitLines content).drop s).take
        (findEndFrom ((splitLines content).drop (s + 1)) lv (s + 1)
          (splitLines content).length - s))) := by
    simp only [extractSection, hstart]
  have h2 : ∀ j, s < j →
      j < findEndFrom ((splitLines content).drop (s + 1)) lv (s + 1)
        (splitLines content).length →
      boundaryHit ((splitLines content).getD j []) lv = false := by
    intro j hj1 hj2
    rcases hspec with ⟨heq, hall⟩ | ⟨j0, hj0, heq, _, hbefore⟩
    · rw [heq] at hj2
      have hjlen : j - (s + 1) < ((splitLines content).drop (s + 1)).length := by
        rw [hdlen]; omega
      have := hall (j - (s + 1)) hjlen
      rw [getD_drop_char] at this
      rwa [show s + 1 + (j - (s + 1)) = j from by omega] at this
    · rw [heq] at hj2
      have := hbefore (j - (s + 1)) (by omega)
      rw [getD_drop_char] at this
      rwa [show s + 1 + (j - (s + 1)) = j from by omega] at this
  have h3 : findEndFrom ((splitLines content).drop (s + 1)) lv (s + 1)
        (splitLines content).length < (splitLines content).length →
      boundaryHit ((splitLines content).getD
        (findEndFrom ((splitLines content).drop (s + 1)) lv (s + 1)
          (splitLines content).length) []) lv = true := by
    intro hE
    rcases hspec with ⟨heq, _⟩ | ⟨j0, _, heq, hhit, _⟩
    · rw [heq] at hE
      exact absurd hE (lt_irrefl _)
    · rw [heq]
      rw [getD_drop_char] at hhit
      exact hhit
  have h4 : findEndFrom ((splitLines content).drop (s + 1)) lv (s + 1)
      (splitLines content).length ≤ (splitLines content).length := by
    rcases hspec with ⟨heq, _⟩ | ⟨j0, hj0, heq, _, _⟩
    · omega
    · rw [hdlen] at hj0
      omega
  exact ⟨hc1, h2, h3, h4, fun l k raw h => headerCapture_boundary l k raw h,
    by decide, by decide, by decide⟩

/-- Witness for the amended C10 on the concrete document: the scan from
the "# Alpha" section start lands on a line passing the end-boundary test
(line 3, the text-less "#  "). -/
theorem extractSection_end_boundary_witness :
    boundaryHit ((splitLines c10content).getD
      (findEndFrom ((splitLines c10content).drop 1) 1 1
        (splitLines c10content).length) []) 1 = true :=
  ((extractSection_end_boundary c10content (("Alpha").data) 0 1 (by decide)).2.2.1)
    (by decide)

end HackTricks
